import Mathlib

/-!
Verification of the SysManual core logic (`sysmanual_core.py`): the
relevance-ranked fuzzy search engine (tokenizer, token matcher, entry
scorer, category search) and the collision-free identifier/name generator
used when duplicating categories and entries.

Python strings are modelled as `List Char`; Python floats are modelled as
exact rationals (`ℚ`).  Word characters and digits follow the ASCII
interpretation of the regex classes `\w` and `\d`; the `.`/`$` newline
subtleties of `re.match` are not modelled (no input in this development
contains a newline).
-/

/-- ASCII model of the regex class `\w`: letters, digits, underscore. -/
def isWordChar (c : Char) : Bool := c.isAlphanum || c = '_'

/-- Python `str.lower()` (ASCII). -/
def lowerL (s : List Char) : List Char := s.map Char.toLower

/-- Python `str.strip()`: drop whitespace from both ends. -/
def pyStrip (s : List Char) : List Char :=
  ((s.dropWhile Char.isWhitespace).reverse.dropWhile Char.isWhitespace).reverse

theorem dropWhile_length_le (p : Char → Bool) (l : List Char) :
    (l.dropWhile p).length ≤ l.length := by
  induction l with
  | nil => simp [List.dropWhile]
  | cons c cs ih =>
    by_cases h : p c
    · simp only [List.dropWhile, h]
      exact Nat.le_succ_of_le ih
    · simp [List.dropWhile, h]

/-- Fuelled scanner behind `wordTokens`; the fuel only forces structural
recursion and is irrelevant once it is at least the list length. -/
def wordTokensF : ℕ → List Char → List (List Char)
  | 0, _ => []
  | _ + 1, [] => []
  | f + 1, c :: cs =>
    if isWordChar c then
      (c :: cs.takeWhile isWordChar) :: wordTokensF f (cs.dropWhile isWordChar)
    else
      wordTokensF f cs

/-- `re.findall(r"\w+", s)`: the maximal runs of word characters of `s`,
in order. -/
def wordTokens (l : List Char) : List (List Char) := wordTokensF l.length l

theorem wordTokensF_fuel_irrel :
    ∀ (f g : ℕ) (l : List Char), l.length ≤ f → l.length ≤ g →
      wordTokensF f l = wordTokensF g l := by
  intro f
  induction f with
  | zero =>
    intro g l hf hg
    have : l = [] := List.length_eq_zero.mp (by omega)
    subst this
    cases g <;> rfl
  | succ f ih =>
    intro g l hf hg
    cases l with
    | nil => cases g <;> rfl
    | cons c cs =>
      cases g with
      | zero => simp at hg
      | succ g =>
        simp only [List.length_cons] at hf hg
        simp only [wordTokensF]
        by_cases hc : isWordChar c
        · rw [if_pos hc, if_pos hc]
          have hd := dropWhile_length_le isWordChar cs
          rw [ih g (cs.dropWhile isWordChar) (by omega) (by omega)]
        · rw [if_neg hc, if_neg hc]
          exact ih g cs (by omega) (by omega)

/-- `SysManualSearch.tokenize`: split text into lowercase word tokens
(`re.findall(r"\w+", text.lower())`; an empty text yields no tokens). -/
def tokenize (text : List Char) : List (List Char) := wordTokens (lowerL text)

/-! ### Decimal representation of naturals

`f"{base_id}_{current_count}"` renders the counter with `Nat.repr`.  The
termination argument of the id-generation loop needs `Nat.repr` to be
injective, which we prove via an explicit decoding function. -/

/-- The decimal digit characters of `n`, most significant first. -/
def digitsOf (n : ℕ) : List Char :=
  if n < 10 then [Nat.digitChar n]
  else digitsOf (n / 10) ++ [Nat.digitChar (n % 10)]
termination_by n
decreasing_by
  exact Nat.div_lt_self (by omega) (by omega)

theorem toDigitsCore_eq_digitsOf :
    ∀ (f n : ℕ) (l : List Char), 0 < f → n < 10 ^ f →
      Nat.toDigitsCore 10 f n l = digitsOf n ++ l := by
  intro f
  induction f with
  | zero => intro n l h0 _; omega
  | succ f ih =>
    intro n l _ hn
    by_cases hq : n / 10 = 0
    · have hlt : n < 10 := by omega
      rw [digitsOf]
      simp [Nat.toDigitsCore, hq, hlt, Nat.mod_eq_of_lt hlt]
    · have hf : 0 < f := by
        by_contra h
        have : f = 0 := by omega
        subst this
        simp [pow_succ, pow_zero] at hn
        omega
      have hn' : n / 10 < 10 ^ f := by
        rw [Nat.div_lt_iff_lt_mul (by omega)]
        calc n < 10 ^ (f + 1) := hn
          _ = 10 ^ f * 10 := by rw [pow_succ]
      have hge : ¬ n < 10 := by
        intro h
        exact hq (Nat.div_eq_of_lt h)
      rw [Nat.toDigitsCore]
      simp only [hq, if_false]
      rw [ih (n / 10) (Nat.digitChar (n % 10) :: l) hf hn']
      conv_rhs => rw [digitsOf]
      simp [hge]

theorem toDigits_eq_digitsOf (n : ℕ) : Nat.toDigits 10 n = digitsOf n := by
  have h1 : n < 10 ^ (n + 1) := by
    calc n < 10 ^ n := Nat.lt_pow_self (by omega) n
      _ ≤ 10 ^ (n + 1) := Nat.pow_le_pow_right (by omega) (by omega)
  have := toDigitsCore_eq_digitsOf (n + 1) n [] (by omega) h1
  simpa [Nat.toDigits] using this

/-- Decode a list of decimal digit characters back to a natural number. -/
def decodeDigits (l : List Char) : ℕ :=
  l.foldl (fun a c => 10 * a + (c.toNat - 48)) 0

theorem digitChar_toNat_sub (d : ℕ) (hd : d < 10) :
    (Nat.digitChar d).toNat - 48 = d := by
  interval_cases d <;> decide

theorem foldl_digitsOf (n : ℕ) :
    ∀ a : ℕ, List.foldl (fun a c => 10 * a + (c.toNat - 48)) a (digitsOf n)
      = a * 10 ^ (digitsOf n).length + n := by
  induction n using Nat.strong_induction_on with
  | _ n ih =>
    intro a
    by_cases h : n < 10
    · rw [digitsOf]
      simp [h, digitChar_toNat_sub n h]
      omega
    · rw [digitsOf]
      simp only [h, if_false]
      rw [List.foldl_append, ih (n / 10) (Nat.div_lt_self (by omega) (by omega)) a]
      have hmod : (Nat.digitChar (n % 10)).toNat - 48 = n % 10 :=
        digitChar_toNat_sub (n % 10) (Nat.mod_lt n (by omega))
      simp only [List.foldl_cons, List.foldl_nil, List.length_append,
        List.length_cons, List.length_nil, hmod]
      have hdm : 10 * (n / 10) + n % 10 = n := Nat.div_add_mod n 10
      generalize (digitsOf (n / 10)).length = k
      rw [pow_succ]
      generalize hq : a * 10 ^ k = q
      have : a * (10 ^ k * 10) = q * 10 := by rw [← hq]; ring
      rw [this]
      omega

theorem decodeDigits_digitsOf (n : ℕ) : decodeDigits (digitsOf n) = n := by
  have := foldl_digitsOf n 0
  simpa [decodeDigits] using this

theorem digitsOf_injective : Function.Injective digitsOf := by
  intro m n h
  have := decodeDigits_digitsOf m
  rw [h, decodeDigits_digitsOf] at this
  omega

theorem natRepr_injective : Function.Injective Nat.repr := by
  intro m n h
  apply digitsOf_injective
  rw [← toDigits_eq_digitsOf, ← toDigits_eq_digitsOf]
  have h2 : (Nat.toDigits 10 m).asString = (Nat.toDigits 10 n).asString := h
  have h3 := congrArg String.data h2
  simpa [List.asString] using h3

/-! ### `difflib.SequenceMatcher`, as instantiated by the source

`best_match_score_for_token` computes `SequenceMatcher(None, token, w).ratio()`.
With `isjunk=None` the junk set `bjunk` is empty, so in `find_longest_match`
the two junk-extension `while` loops never execute and `isbjunk(...)` is
always false; they are therefore omitted here.  The "autojunk" heuristic
(active when `len(b) >= 200`) removes the index list of a popular element
from `b2j`. -/

/-- The ascending list of positions of `c` in `b` (one entry of `b2j`
before the autojunk step). -/
def occurrences (b : List Char) (c : Char) : List ℕ :=
  b.enum.filterMap (fun p => if p.2 = c then some p.1 else none)

/-- `b2j.get(c, [])` after the autojunk step: the positions of `c` in `b`,
unless `len(b) >= 200` and `c` is popular (`len(indices) > len(b)//100 + 1`). -/
def b2jGet (b : List Char) (c : Char) : List ℕ :=
  if 200 ≤ b.length ∧ b.length / 100 + 1 < (occurrences b c).length then []
  else occurrences b c

/-- The running best match of `find_longest_match`. -/
structure FlmBest where
  besti : ℕ
  bestj : ℕ
  bestsize : ℕ

/-- One iteration of the inner `for j in b2j[a[i]]` loop of
`find_longest_match`.  `j2len` is the dict of the previous outer iteration
(Python reads it through `j2lenget` while writing into `newj2len`); looking
up `j - 1` when `j = 0` is Python's absent key `-1`, hence `0`.  Python's
`i-k+1` and `j-k+1` are rendered `i+1-k` and `j+1-k`, which agree with the
integer values since `k ≤ i+1` and `k ≤ j+1` always hold here. -/
def flmInner (j2len : ℕ → ℕ) (i : ℕ)
    (st : (ℕ → ℕ) × FlmBest) (j : ℕ) : (ℕ → ℕ) × FlmBest :=
  let k := (if j = 0 then 0 else j2len (j - 1)) + 1
  let newj2len := fun j' => if j' = j then k else st.1 j'
  if st.2.bestsize < k then (newj2len, ⟨i + 1 - k, j + 1 - k, k⟩)
  else (newj2len, st.2)

/-- One iteration of the outer `for i in range(alo, ahi)` loop.  The
`continue`/`break` guards on the ascending index list amount to keeping
the positions in `[blo, bhi)`; `newj2len` starts empty. -/
def flmOuter (a b : List Char) (blo bhi : ℕ)
    (st : (ℕ → ℕ) × FlmBest) (i : ℕ) : (ℕ → ℕ) × FlmBest :=
  let js := (b2jGet b (a.getD i ' ')).filter
    (fun j => decide (blo ≤ j) && decide (j < bhi))
  js.foldl (flmInner st.1 i) ((fun _ => 0), st.2)

/-- The first extension loop of `find_longest_match`: grow the match
backwards while the preceding characters agree. -/
def extendBack (a b : List Char) (alo blo besti bestj bestsize : ℕ) : ℕ × ℕ × ℕ :=
  if alo < besti ∧ blo < bestj ∧ a.getD (besti - 1) ' ' = b.getD (bestj - 1) ' ' then
    extendBack a b alo blo (besti - 1) (bestj - 1) (bestsize + 1)
  else (besti, bestj, bestsize)
termination_by besti
decreasing_by omega

/-- The second extension loop of `find_longest_match`: grow the match
forwards while the following characters agree. -/
def extendFwd (a b : List Char) (ahi bhi besti bestj bestsize : ℕ) : ℕ :=
  if besti + bestsize < ahi ∧ bestj + bestsize < bhi ∧
      a.getD (besti + bestsize) ' ' = b.getD (bestj + bestsize) ' ' then
    extendFwd a b ahi bhi besti bestj (bestsize + 1)
  else bestsize
termination_by ahi - bestsize
decreasing_by omega

/-- `SequenceMatcher.find_longest_match(alo, ahi, blo, bhi)` with an empty
junk set: the quadratic dict-based scan followed by the two (non-junk)
extension loops. -/
def find_longest_match (a b : List Char) (alo ahi blo bhi : ℕ) : ℕ × ℕ × ℕ :=
  let dp := (List.range' alo (ahi - alo)).foldl (flmOuter a b blo bhi)
    ((fun _ => 0), ⟨alo, blo, 0⟩)
  let r := extendBack a b alo blo dp.2.besti dp.2.bestj dp.2.bestsize
  (r.1, r.2.1, extendFwd a b ahi bhi r.1 r.2.1 r.2.2)

/-- Invariant of the `j2len` dict: every tracked run ends inside the
`[blo, bhi)` window and is no longer than the window offsets allow. -/
def J2Inv (alo blo bhi i : ℕ) (f : ℕ → ℕ) : Prop :=
  ∀ j, f j ≠ 0 → blo ≤ j ∧ j < bhi ∧ f j ≤ j + 1 - blo ∧ f j ≤ i - alo

/-- Invariant of the running best: either nothing was found yet, or the
match lies inside the `[alo, ahi) × [blo, bhi)` window. -/
def BestInv (alo ahi blo bhi : ℕ) (st : FlmBest) : Prop :=
  (st.bestsize = 0 → st.besti = alo ∧ st.bestj = blo) ∧
  (st.bestsize ≠ 0 →
    alo ≤ st.besti ∧ st.besti + st.bestsize ≤ ahi ∧
    blo ≤ st.bestj ∧ st.bestj + st.bestsize ≤ bhi)

theorem flmInner_fold_inv (alo ahi blo bhi i : ℕ) (j2lenOld : ℕ → ℕ)
    (hold : J2Inv alo blo bhi i j2lenOld) (hia : alo ≤ i) (hih : i < ahi) :
    ∀ (js : List ℕ), (∀ j ∈ js, blo ≤ j ∧ j < bhi) →
    ∀ (g : ℕ → ℕ) (bst : FlmBest), J2Inv alo blo bhi (i + 1) g →
      BestInv alo ahi blo bhi bst →
      J2Inv alo blo bhi (i + 1) (js.foldl (flmInner j2lenOld i) (g, bst)).1 ∧
      BestInv alo ahi blo bhi (js.foldl (flmInner j2lenOld i) (g, bst)).2 := by
  intro js
  induction js with
  | nil => intro _ g bst hg hbst; exact ⟨hg, hbst⟩
  | cons j js ih =>
    intro hjs g bst hg hbst
    have hj : blo ≤ j ∧ j < bhi := hjs j (by simp)
    have hjs' : ∀ x ∈ js, blo ≤ x ∧ x < bhi := fun x hx => hjs x (by simp [hx])
    simp only [List.foldl_cons]
    obtain ⟨k, hk⟩ : ∃ k, (if j = 0 then 0 else j2lenOld (j - 1)) + 1 = k := ⟨_, rfl⟩
    have hkpos : 0 < k := by omega
    have hk_j : k ≤ j + 1 - blo := by
      by_cases h0 : j = 0
      · simp [h0] at hk; omega
      · by_cases hz : j2lenOld (j - 1) = 0
        · simp [h0, hz] at hk; omega
        · have := hold (j - 1) hz
          simp only [h0, if_false] at hk
          omega
    have hk_i : k ≤ i + 1 - alo := by
      by_cases h0 : j = 0
      · simp [h0] at hk; omega
      · by_cases hz : j2lenOld (j - 1) = 0
        · simp [h0, hz] at hk; omega
        · have := hold (j - 1) hz
          simp only [h0, if_false] at hk
          omega
    have hstep : flmInner j2lenOld i (g, bst) j =
        ((fun j' => if j' = j then k else g j'),
          if bst.bestsize < k then (⟨i + 1 - k, j + 1 - k, k⟩ : FlmBest) else bst) := by
      simp only [flmInner, hk]
      by_cases hc : bst.bestsize < k <;> simp [hc]
    rw [hstep]
    apply ih hjs'
    · intro j' hj'
      by_cases he : j' = j
      · subst he
        simp only [if_pos rfl] at hj' ⊢
        exact ⟨hj.1, hj.2, hk_j, hk_i⟩
      · simp only [if_neg he] at hj' ⊢
        exact hg j' hj'
    · by_cases hc : bst.bestsize < k
      · simp only [if_pos hc]
        constructor
        · intro h0
          have hk0 : k = 0 := h0
          omega
        · intro _
          have h1 : blo ≤ j := hj.1
          have h2 : j < bhi := hj.2
          refine ⟨?_, ?_, ?_, ?_⟩
          · show alo ≤ i + 1 - k
            omega
          · show (i + 1 - k) + k ≤ ahi
            omega
          · show blo ≤ j + 1 - k
            omega
          · show (j + 1 - k) + k ≤ bhi
            omega
      · simp only [if_neg hc]; exact hbst

theorem flmOuter_inv (a b : List Char) (alo ahi blo bhi i : ℕ)
    (hia : alo ≤ i) (hih : i < ahi) (st : (ℕ → ℕ) × FlmBest)
    (hst : J2Inv alo blo bhi i st.1) (hbst : BestInv alo ahi blo bhi st.2) :
    J2Inv alo blo bhi (i + 1) (flmOuter a b blo bhi st i).1 ∧
    BestInv alo ahi blo bhi (flmOuter a b blo bhi st i).2 := by
  apply flmInner_fold_inv alo ahi blo bhi i st.1 hst hia hih
  · intro j hj
    simp only [List.mem_filter, Bool.and_eq_true, decide_eq_true_eq] at hj
    exact ⟨hj.2.1, hj.2.2⟩
  · intro j hj; simp at hj
  · exact hbst

theorem flm_fold_inv (a b : List Char) (alo ahi blo bhi : ℕ) :
    ∀ (cnt start : ℕ) (f : ℕ → ℕ) (bst : FlmBest),
      alo ≤ start → cnt ≤ ahi - start →
      J2Inv alo blo bhi start f → BestInv alo ahi blo bhi bst →
      BestInv alo ahi blo bhi
        ((List.range' start cnt).foldl (flmOuter a b blo bhi) (f, bst)).2 := by
  intro cnt
  induction cnt with
  | zero => intro start f bst _ _ _ hbst; simpa using hbst
  | succ cnt ih =>
    intro start f bst hs hcnt hf hbst
    have hrange : List.range' start (cnt + 1) = start :: List.range' (start + 1) cnt := by
      simp [List.range'_succ]
    rw [hrange, List.foldl_cons]
    have hstep := flmOuter_inv a b alo ahi blo bhi start hs (by omega) (f, bst) hf hbst
    have := ih (start + 1) (flmOuter a b blo bhi (f, bst) start).1
      (flmOuter a b blo bhi (f, bst) start).2 (by omega) (by omega) hstep.1 hstep.2
    simpa using this

theorem extendBack_spec (a b : List Char) (alo blo : ℕ) :
    ∀ (besti bestj bestsize : ℕ), alo ≤ besti → blo ≤ bestj →
      alo ≤ (extendBack a b alo blo besti bestj bestsize).1 ∧
      blo ≤ (extendBack a b alo blo besti bestj bestsize).2.1 ∧
      (extendBack a b alo blo besti bestj bestsize).1 +
        (extendBack a b alo blo besti bestj bestsize).2.2 = besti + bestsize ∧
      (extendBack a b alo blo besti bestj bestsize).2.1 +
        (extendBack a b alo blo besti bestj bestsize).2.2 = bestj + bestsize := by
  intro besti
  induction besti using Nat.strong_induction_on with
  | _ besti ih =>
    intro bestj bestsize ha hb
    rw [extendBack]
    by_cases h : alo < besti ∧ blo < bestj ∧
        a.getD (besti - 1) ' ' = b.getD (bestj - 1) ' '
    · simp only [if_pos h]
      have hlt : besti - 1 < besti := by omega
      have := ih (besti - 1) hlt (bestj - 1) (bestsize + 1) (by omega) (by omega)
      refine ⟨this.1, this.2.1, ?_, ?_⟩ <;> omega
    · rw [if_neg h]
      exact ⟨ha, hb, rfl, rfl⟩

theorem extendFwd_spec (a b : List Char) (ahi bhi besti bestj : ℕ) :
    ∀ (fuel bestsize : ℕ), ahi - bestsize ≤ fuel →
      bestsize ≤ extendFwd a b ahi bhi besti bestj bestsize ∧
      (extendFwd a b ahi bhi besti bestj bestsize = bestsize ∨
        (besti + extendFwd a b ahi bhi besti bestj bestsize ≤ ahi ∧
         bestj + extendFwd a b ahi bhi besti bestj bestsize ≤ bhi)) := by
  intro fuel
  induction fuel with
  | zero =>
    intro bestsize hf
    rw [extendFwd]
    have hng : ¬(besti + bestsize < ahi ∧ bestj + bestsize < bhi ∧
        a.getD (besti + bestsize) ' ' = b.getD (bestj + bestsize) ' ') := by
      rintro ⟨h1, -, -⟩; omega
    rw [if_neg hng]
    exact ⟨le_refl _, Or.inl rfl⟩
  | succ fuel ih =>
    intro bestsize hf
    rw [extendFwd]
    by_cases h : besti + bestsize < ahi ∧ bestj + bestsize < bhi ∧
        a.getD (besti + bestsize) ' ' = b.getD (bestj + bestsize) ' '
    · rw [if_pos h]
      obtain ⟨h1, h2⟩ := ih (bestsize + 1) (by omega)
      refine ⟨by omega, ?_⟩
      rcases h2 with h2 | h2
      · right; rw [h2]; exact ⟨by omega, by omega⟩
      · right; exact h2
    · rw [if_neg h]
      exact ⟨le_refl _, Or.inl rfl⟩

theorem find_longest_match_bounds (a b : List Char) (alo ahi blo bhi : ℕ) :
    ∀ i j k, find_longest_match a b alo ahi blo bhi = (i, j, k) → k ≠ 0 →
      alo ≤ i ∧ i + k ≤ ahi ∧ blo ≤ j ∧ j + k ≤ bhi := by
  intro i j k heq hk
  obtain ⟨B, hB⟩ : ∃ B, ((List.range' alo (ahi - alo)).foldl (flmOuter a b blo bhi)
      ((fun _ => 0), (⟨alo, blo, 0⟩ : FlmBest))).2 = B := ⟨_, rfl⟩
  obtain ⟨r, hrr⟩ : ∃ r, extendBack a b alo blo B.besti B.bestj B.bestsize = r := ⟨_, rfl⟩
  obtain ⟨s, hs⟩ : ∃ s, extendFwd a b ahi bhi r.1 r.2.1 r.2.2 = s := ⟨_, rfl⟩
  have heq2 : (r.1, r.2.1, s) = (i, j, k) := by
    rw [← heq]
    simp only [find_longest_match]
    rw [hB, hrr, hs]
  have hinv : BestInv alo ahi blo bhi B := by
    rw [← hB]
    apply flm_fold_inv a b alo ahi blo bhi (ahi - alo) alo (fun _ => 0) ⟨alo, blo, 0⟩
      (le_refl alo) (by omega)
    · intro j hj; exact absurd rfl hj
    · constructor
      · intro _; exact ⟨rfl, rfl⟩
      · intro h; exact absurd rfl h
  obtain ⟨hinv0, hinv1⟩ := hinv
  have hBij : alo ≤ B.besti ∧ blo ≤ B.bestj := by
    by_cases hz : B.bestsize = 0
    · have := hinv0 hz; omega
    · have := hinv1 hz; omega
  have hback := extendBack_spec a b alo blo B.besti B.bestj B.bestsize hBij.1 hBij.2
  rw [hrr] at hback
  obtain ⟨hb1, hb2, hb3, hb4⟩ := hback
  have hfwd := extendFwd_spec a b ahi bhi r.1 r.2.1 ahi r.2.2 (by omega)
  rw [hs] at hfwd
  obtain ⟨hf1, hf2⟩ := hfwd
  simp only [Prod.mk.injEq] at heq2
  obtain ⟨hi1, hj1, hk1⟩ := heq2
  subst hi1; subst hj1; subst hk1
  by_cases hz : B.bestsize = 0
  · obtain ⟨hbi, hbj⟩ := hinv0 hz
    rw [hz] at hb3 hb4
    rw [hbi] at hb3
    rw [hbj] at hb4
    rcases hf2 with hsz | hsz
    · exfalso; omega
    · obtain ⟨hs1, hs2⟩ := hsz
      exact ⟨hb1, by omega, hb2, by omega⟩
  · obtain ⟨hq1, hq2, hq3, hq4⟩ := hinv1 hz
    rcases hf2 with hsz | hsz
    · exact ⟨hb1, by omega, hb2, by omega⟩
    · obtain ⟨hs1, hs2⟩ := hsz
      exact ⟨hb1, by omega, hb2, by omega⟩

/-- `SequenceMatcher.get_matching_blocks`, collected recursively in index
order.  Python drives the same interval splits with an explicit queue and
then sorts the blocks; the resulting (sorted) block list is exactly this
in-order collection.  The final merge of adjacent blocks and the `(la, lb, 0)`
sentinel do not change the total matched size, which is all `ratio()` uses. -/
def matchingBlocks (a b : List Char) (alo ahi blo bhi : ℕ) : List (ℕ × ℕ × ℕ) :=
  let m := find_longest_match a b alo ahi blo bhi
  if hk : m.2.2 = 0 then []
  else
    (if h2 : alo < m.1 ∧ blo < m.2.1 then matchingBlocks a b alo m.1 blo m.2.1 else []) ++
    m ::
    (if h3 : m.1 + m.2.2 < ahi ∧ m.2.1 + m.2.2 < bhi then
      matchingBlocks a b (m.1 + m.2.2) ahi (m.2.1 + m.2.2) bhi else [])
termination_by (ahi - alo) + (bhi - blo)
decreasing_by
  · have hb := find_longest_match_bounds a b alo ahi blo bhi m.1 m.2.1 m.2.2 rfl hk
    have e1 : (find_longest_match a b alo ahi blo bhi).1 = m.1 := rfl
    have e2 : (find_longest_match a b alo ahi blo bhi).2.1 = m.2.1 := rfl
    have e3 : (find_longest_match a b alo ahi blo bhi).2.2 = m.2.2 := rfl
    omega
  · have hb := find_longest_match_bounds a b alo ahi blo bhi m.1 m.2.1 m.2.2 rfl hk
    have e1 : (find_longest_match a b alo ahi blo bhi).1 = m.1 := rfl
    have e2 : (find_longest_match a b alo ahi blo bhi).2.1 = m.2.1 := rfl
    have e3 : (find_longest_match a b alo ahi blo bhi).2.2 = m.2.2 := rfl
    omega

theorem matchingBlocks_eq (a b : List Char) (alo ahi blo bhi : ℕ) :
    matchingBlocks a b alo ahi blo bhi =
      if (find_longest_match a b alo ahi blo bhi).2.2 = 0 then []
      else
        (if alo < (find_longest_match a b alo ahi blo bhi).1 ∧
            blo < (find_longest_match a b alo ahi blo bhi).2.1 then
          matchingBlocks a b alo (find_longest_match a b alo ahi blo bhi).1 blo
            (find_longest_match a b alo ahi blo bhi).2.1 else []) ++
        (find_longest_match a b alo ahi blo bhi) ::
        (if (find_longest_match a b alo ahi blo bhi).1 +
              (find_longest_match a b alo ahi blo bhi).2.2 < ahi ∧
            (find_longest_match a b alo ahi blo bhi).2.1 +
              (find_longest_match a b alo ahi blo bhi).2.2 < bhi then
          matchingBlocks a b
            ((find_longest_match a b alo ahi blo bhi).1 +
              (find_longest_match a b alo ahi blo bhi).2.2) ahi
            ((find_longest_match a b alo ahi blo bhi).2.1 +
              (find_longest_match a b alo ahi blo bhi).2.2) bhi else []) := by
  rw [matchingBlocks]
  simp only [dite_eq_ite]

/-- Total size of a list of matching blocks. -/
def blockSizeSum (l : List (ℕ × ℕ × ℕ)) : ℕ := (l.map (fun t => t.2.2)).sum

theorem matchingBlocks_sum_le (a b : List Char) :
    ∀ (n alo ahi blo bhi : ℕ), (ahi - alo) + (bhi - blo) ≤ n →
      blockSizeSum (matchingBlocks a b alo ahi blo bhi) ≤ ahi - alo ∧
      blockSizeSum (matchingBlocks a b alo ahi blo bhi) ≤ bhi - blo := by
  intro n
  induction n using Nat.strong_induction_on with
  | _ n ih =>
    intro alo ahi blo bhi hn
    rw [matchingBlocks_eq]
    generalize hm : find_longest_match a b alo ahi blo bhi = m
    obtain ⟨i, j, k⟩ := m
    by_cases hk : k = 0
    · simp [hk, blockSizeSum]
    · simp only [hk, if_false]
      obtain ⟨hb1, hb2, hb3, hb4⟩ :=
        find_longest_match_bounds a b alo ahi blo bhi i j k hm hk
      have hsum : ∀ (L1 L2 : List (ℕ × ℕ × ℕ)),
          blockSizeSum (L1 ++ (i, j, k) :: L2) =
            blockSizeSum L1 + k + blockSizeSum L2 := by
        intro L1 L2
        simp [blockSizeSum, List.map_append, List.sum_append]
        omega
      have hnil : blockSizeSum ([] : List (ℕ × ℕ × ℕ)) = 0 := rfl
      by_cases h2 : alo < i ∧ blo < j <;> by_cases h3 : i + k < ahi ∧ j + k < bhi
      · rw [if_pos h2, if_pos h3, hsum]
        have hL := ih ((i - alo) + (j - blo)) (by omega) alo i blo j (le_refl _)
        have hR := ih ((ahi - (i + k)) + (bhi - (j + k))) (by omega)
          (i + k) ahi (j + k) bhi (le_refl _)
        omega
      · rw [if_pos h2, if_neg h3, hsum, hnil]
        have hL := ih ((i - alo) + (j - blo)) (by omega) alo i blo j (le_refl _)
        omega
      · rw [if_neg h2, if_pos h3, hsum, hnil]
        have hR := ih ((ahi - (i + k)) + (bhi - (j + k))) (by omega)
          (i + k) ahi (j + k) bhi (le_refl _)
        omega
      · rw [if_neg h2, if_neg h3, hsum, hnil]
        omega

/-- `SequenceMatcher.ratio()`: `2.0 * M / T` where `M` is the total size
of the matched blocks and `T = len(a) + len(b)` (`1.0` when `T = 0`). -/
def ratioVal (a b : List Char) : ℚ :=
  if a.length + b.length = 0 then 1
  else 2 * (blockSizeSum (matchingBlocks a b 0 a.length 0 b.length) : ℚ) /
    ((a.length : ℚ) + (b.length : ℚ))

theorem ratioVal_nonneg (a b : List Char) : 0 ≤ ratioVal a b := by
  unfold ratioVal
  by_cases h : a.length + b.length = 0
  · simp [h]
  · simp only [h, if_false]
    positivity

theorem ratioVal_le_one (a b : List Char) : ratioVal a b ≤ 1 := by
  unfold ratioVal
  by_cases h : a.length + b.length = 0
  · simp [h]
  · simp only [h, if_false]
    have hM := matchingBlocks_sum_le a b ((a.length - 0) + (b.length - 0))
      0 a.length 0 b.length (le_refl _)
    have hpos : (0 : ℚ) < (a.length : ℚ) + (b.length : ℚ) := by
      have : 0 < a.length + b.length := by omega
      exact_mod_cast this
    rw [div_le_one hpos]
    have h1 : blockSizeSum (matchingBlocks a b 0 a.length 0 b.length) ≤ a.length := by
      have := hM.1; omega
    have h2 : blockSizeSum (matchingBlocks a b 0 a.length 0 b.length) ≤ b.length := by
      have := hM.2; omega
    have c1 : (blockSizeSum (matchingBlocks a b 0 a.length 0 b.length) : ℚ) ≤ (a.length : ℚ) :=
      by exact_mod_cast h1
    have c2 : (blockSizeSum (matchingBlocks a b 0 a.length 0 b.length) : ℚ) ≤ (b.length : ℚ) :=
      by exact_mod_cast h2
    linarith

/-! ### Token matcher (`SysManualSearch.best_match_score_for_token`) -/

/-- The `for w in words` loop of `best_match_score_for_token`, carrying the
running `best`; on normal exit the result is `best * 0.9`, and an exact
word match short-circuits with `1.0`. -/
def bestMatchLoop (token : List Char) : List (List Char) → ℚ → ℚ
  | [], best => best * (9/10)
  | w :: ws, best =>
    if w = [] then bestMatchLoop token ws best
    else if token = w then 1
    else if token <:+: w ∨ w <:+: token then bestMatchLoop token ws (max best (7/10))
    else bestMatchLoop token ws (if best < ratioVal token w then ratioVal token w else best)

/-- `SysManualSearch.best_match_score_for_token`: best match score in
`[0.0, 1.0]` for a token versus a text (`in` on Python strings is the
substring relation, modelled by `<:+:`). -/
def best_match_score_for_token (token text : List Char) : ℚ :=
  if token = [] ∨ text = [] then 0
  else
    let tok := lowerL token
    let text_l := lowerL text
    if tok = text_l then 1
    else if tok <:+: text_l then 3/5
    else bestMatchLoop tok (wordTokens text_l) 0

/-! ### Entries and the entry scorer (`SysManualSearch.score_entry`) -/

/-- An element of an entry's `examples` list: either a bare command string
or a `{command, description}` object (an absent description is `""`). -/
inductive ExampleItem where
  | bare (command : List Char)
  | full (command description : List Char)
deriving DecidableEq

/-- The parts an example contributes to the examples surface:
`str(ex.get('command', ''))` and, for the object form,
`str(ex.get('description', ''))`. -/
def exampleParts : ExampleItem → List (List Char)
  | .bare command => [command]
  | .full command description => [command, description]

/-- An entry, with the fields read by the scorer (missing optional fields
are their empty defaults, as in `entry.get(..., '')`).  `content` is the
dict case of the source (`isinstance(entry.get('content'), dict)`), whose
values are joined in insertion order. -/
structure Entry where
  id : List Char
  name : List Char
  description : List Char
  content : List (List Char × List Char)
  examples : List ExampleItem
  notes : List Char
deriving DecidableEq

/-- `SysManualSearch.score_entry`: normalized relevance score of an entry
for the given tokens.  Weights: name 3.0, description 1.8, content 1.5,
examples 1.2, notes 1.0; `max_weight_sum` is their sum (9.0). -/
def score_entry (entry : Entry) (tokens : List (List Char)) : ℚ :=
  if tokens = [] then 1
  else
    let name_text := entry.name
    let desc_text := entry.description
    let content_val := List.intercalate [' '] (entry.content.map Prod.snd)
    let examples_val := List.intercalate [' '] (entry.examples.map exampleParts).flatten
    let notes_text := entry.notes
    let max_weight_sum : ℚ := 3 + 9/5 + 3/2 + 6/5 + 1
    let raw_score := tokens.foldl (fun acc token =>
      acc + best_match_score_for_token token name_text * 3 +
        best_match_score_for_token token desc_text * (9/5) +
        best_match_score_for_token token content_val * (3/2) +
        best_match_score_for_token token examples_val * (6/5) +
        best_match_score_for_token token notes_text * 1) 0
    raw_score / ((tokens.length : ℚ) * max_weight_sum)

/-! ### Category search (`SysManualSearch.search_entries_in_category`)

Python's `scored.sort(key=lambda x: x[0], reverse=True)` is a stable sort
descending on the score; it is modelled by a stable insertion sort. -/

/-- Insert into a descending-sorted list, after all entries with a
strictly greater or equal score seen so far never — precisely: before the
first element whose score is `≤` the inserted one, so that earlier input
elements with an equal score stay in front. -/
def insertDesc (p : ℚ × Entry) : List (ℚ × Entry) → List (ℚ × Entry)
  | [] => [p]
  | q :: qs => if p.1 < q.1 then q :: insertDesc p qs else p :: q :: qs

/-- Stable descending sort on the score component. -/
def sortDesc : List (ℚ × Entry) → List (ℚ × Entry)
  | [] => []
  | x :: xs => insertDesc x (sortDesc xs)

/-- `SysManualSearch.search_entries_in_category`: trim the query, pass
entries through unchanged if the query or its tokenization is empty,
otherwise keep entries scoring at least `min_score` (in input order) and
stably sort them by descending score.  The source's default threshold is
`min_score = 0.12`. -/
def search_entries_in_category (entries : List Entry) (query : List Char)
    (min_score : ℚ) : List Entry :=
  let q := pyStrip query
  if q = [] then entries
  else
    let tokens := tokenize q
    if tokens = [] then entries
    else
      let scored := entries.filterMap (fun entry =>
        let score := score_entry entry tokens
        if min_score ≤ score then some (score, entry) else none)
      (sortDesc scored).map Prod.snd

/-! ### Identifier uniqueness generator (`SysManualCore.get_unique_name_and_id`) -/

/-- `re.match(r"^(.*) \(\d+\)$", name)`: if `name` ends in `" (<digits>)"`,
return the stripped greedy group 1, else the stripped whole name.  (The
greedy `.*` forces the digit run to be maximal.) -/
def stripNameSuffix (name : List Char) : List Char :=
  match name.reverse with
  | ')' :: rest =>
    match rest.takeWhile Char.isDigit, rest.dropWhile Char.isDigit with
    | _ :: _, '(' :: ' ' :: base_rev => pyStrip base_rev.reverse
    | _, _ => pyStrip name
  | _ => pyStrip name

/-- `re.match(r"^(.*)_\d+$", id)`: if `id` ends in `"_<digits>"`, return
the stripped greedy group 1, else the stripped whole id. -/
def stripIdSuffix (id : List Char) : List Char :=
  match id.reverse.takeWhile Char.isDigit, id.reverse.dropWhile Char.isDigit with
  | _ :: _, '_' :: base_rev => pyStrip base_rev.reverse
  | _, _ => pyStrip id

/-- `f"{base_name} ({current_count})"`. -/
def candidateName (base : List Char) (n : ℕ) : List Char :=
  base ++ ' ' :: '(' :: ((Nat.repr n).data ++ [')'])

/-- `f"{base_id}_{current_count}"`. -/
def candidateId (base : List Char) (n : ℕ) : List Char :=
  base ++ '_' :: (Nat.repr n).data

theorem candidateId_injective (base : List Char) :
    Function.Injective (candidateId base) := by
  intro m n h
  simp only [candidateId] at h
  have h2 := List.append_cancel_left h
  have h3 : (Nat.repr m).data = (Nat.repr n).data := by
    injection h2
  apply natRepr_injective
  cases hm : Nat.repr m with
  | mk dm =>
    cases hn : Nat.repr n with
    | mk dn =>
      rw [hm, hn] at h3
      simp at h3
      simp [h3]

theorem exists_fresh_candidate (base : List Char) (ids : List (List Char)) :
    ∃ n, 0 < n ∧ candidateId base n ∉ ids := by
  by_contra hcon
  push_neg at hcon
  have hf : ∀ k : ℕ, candidateId base (k + 1) ∈ ids := fun k =>
    hcon (k + 1) (Nat.succ_pos k)
  have hinj : Function.Injective (fun k : ℕ => candidateId base (k + 1)) := by
    intro x y hxy
    have := candidateId_injective base hxy
    omega
  have hsub : (Finset.range (ids.length + 1)).image
      (fun k : ℕ => candidateId base (k + 1)) ⊆ ids.toFinset := by
    intro x hx
    simp only [Finset.mem_image] at hx
    obtain ⟨k, _, rfl⟩ := hx
    exact List.mem_toFinset.mpr (hf k)
  have hcard := Finset.card_le_card hsub
  rw [Finset.card_image_of_injective _ hinj, Finset.card_range] at hcard
  have := List.toFinset_card_le ids
  omega

/-- The first counter value `i ≥ 1` whose candidate id is not yet used:
the value at which the `while True` loop of `get_unique_name_and_id`
returns. -/
def firstFreeCounter (base : List Char) (ids : List (List Char)) : ℕ :=
  Nat.find (exists_fresh_candidate base ids)

/-- `SysManualCore.get_unique_name_and_id`: strip the `(N)` / `_N`
suffixes, return the stripped pair unchanged when the original id is not
in use, else append the first free counter. -/
def get_unique_name_and_id (original_name original_id : List Char)
    (existing_ids : List (List Char)) : List Char × List Char :=
  let base_name := stripNameSuffix original_name
  let base_id := stripIdSuffix original_id
  if original_id ∈ existing_ids then
    (candidateName base_name (firstFreeCounter base_id existing_ids),
      candidateId base_id (firstFreeCounter base_id existing_ids))
  else (base_name, base_id)

/-- A category, as read by `process_duplicated_category`. -/
structure Category where
  id : List Char
  name : List Char
  entries : List Entry
deriving DecidableEq

/-- `SysManualCore.process_duplicated_category`: rename the (deep-copied)
category against the category-id scope, then rename each child entry
against the accumulated entry-id scope, appending each freshly minted
entry id before processing the next entry. -/
def process_duplicated_category (category_data : Category)
    (existing_cat_ids : List (List Char)) (all_entry_ids : List (List Char)) : Category :=
  let p := get_unique_name_and_id category_data.name category_data.id existing_cat_ids
  let r := category_data.entries.foldl (fun acc entry =>
    let q := get_unique_name_and_id entry.name entry.id acc.2
    (acc.1 ++ [{ entry with name := q.1, id := q.2 }], acc.2 ++ [q.2]))
    (([] : List Entry), all_entry_ids)
  { id := p.2, name := p.1, entries := r.1 }

/-! ### Properties of the stable descending sort -/

theorem insertDesc_perm (p : ℚ × Entry) (l : List (ℚ × Entry)) :
    (insertDesc p l).Perm (p :: l) := by
  induction l with
  | nil => simp [insertDesc]
  | cons q qs ih =>
    by_cases h : p.1 < q.1
    · simp only [insertDesc, if_pos h]
      exact (ih.cons q).trans (List.Perm.swap p q qs)
    · simp [insertDesc, h]

theorem sortDesc_perm (l : List (ℚ × Entry)) : (sortDesc l).Perm l := by
  induction l with
  | nil => simp [sortDesc]
  | cons x xs ih =>
    exact (insertDesc_perm x (sortDesc xs)).trans (ih.cons x)

theorem insertDesc_sorted (p : ℚ × Entry) (l : List (ℚ × Entry))
    (h : l.Pairwise (fun x y => y.1 ≤ x.1)) :
    (insertDesc p l).Pairwise (fun x y => y.1 ≤ x.1) := by
  induction l with
  | nil => simp [insertDesc]
  | cons q qs ih =>
    obtain ⟨hq, hqs⟩ := List.pairwise_cons.mp h
    by_cases hpq : p.1 < q.1
    · simp only [insertDesc, if_pos hpq]
      refine List.pairwise_cons.mpr ⟨?_, ih hqs⟩
      intro y hy
      have hmem' : y ∈ p :: qs := (insertDesc_perm p qs).mem_iff.mp hy
      rcases List.mem_cons.mp hmem' with rfl | hmem
      · exact le_of_lt hpq
      · exact hq y hmem
    · simp only [insertDesc, if_neg hpq]
      refine List.pairwise_cons.mpr ⟨?_, h⟩
      intro y hy
      rcases List.mem_cons.mp hy with rfl | hmem
      · exact le_of_not_lt hpq
      · exact le_trans (hq y hmem) (le_of_not_lt hpq)

theorem insertDesc_filter_eq (c : ℚ) (p : ℚ × Entry) (hp : p.1 = c)
    (l : List (ℚ × Entry)) :
    (insertDesc p l).filter (fun x => decide (x.1 = c)) =
      p :: l.filter (fun x => decide (x.1 = c)) := by
  induction l with
  | nil => simp [insertDesc, hp]
  | cons q qs ih =>
    by_cases hpq : p.1 < q.1
    · have hqc : ¬ q.1 = c := by rw [← hp]; intro he; rw [he] at hpq; exact lt_irrefl _ hpq
      simp only [insertDesc, if_pos hpq, List.filter_cons]
      simp only [decide_eq_true_eq, hqc, if_false, ih]
    · simp only [insertDesc, if_neg hpq, List.filter_cons]
      simp [hp]

theorem insertDesc_filter_ne (c : ℚ) (p : ℚ × Entry) (hp : ¬ p.1 = c)
    (l : List (ℚ × Entry)) :
    (insertDesc p l).filter (fun x => decide (x.1 = c)) =
      l.filter (fun x => decide (x.1 = c)) := by
  induction l with
  | nil => simp [insertDesc, hp]
  | cons q qs ih =>
    by_cases hpq : p.1 < q.1
    · simp only [insertDesc, if_pos hpq, List.filter_cons, ih]
    · simp only [insertDesc, if_neg hpq, List.filter_cons]
      simp [hp]

theorem sortDesc_filter (c : ℚ) (l : List (ℚ × Entry)) :
    (sortDesc l).filter (fun x => decide (x.1 = c)) =
      l.filter (fun x => decide (x.1 = c)) := by
  induction l with
  | nil => simp [sortDesc]
  | cons x xs ih =>
    simp only [sortDesc]
    by_cases hx : x.1 = c
    · rw [insertDesc_filter_eq c x hx, ih, List.filter_cons]
      simp [hx]
    · rw [insertDesc_filter_ne c x hx, ih, List.filter_cons]
      simp [hx]

/-! ### Properties of the tokenizer -/

theorem wordTokens_eq_nil : wordTokens [] = [] := rfl

theorem wordTokens_cons (c : Char) (cs : List Char) :
    wordTokens (c :: cs) =
      if isWordChar c then
        (c :: cs.takeWhile isWordChar) :: wordTokens (cs.dropWhile isWordChar)
      else wordTokens cs := by
  show wordTokensF (c :: cs).length (c :: cs) = _
  simp only [List.length_cons, wordTokensF]
  by_cases hc : isWordChar c
  · rw [if_pos hc, if_pos hc]
    have hd := dropWhile_length_le isWordChar cs
    rw [wordTokensF_fuel_irrel cs.length (cs.dropWhile isWordChar).length
      (cs.dropWhile isWordChar) (by omega) (le_refl _)]
    rfl
  · rw [if_neg hc, if_neg hc]
    rfl

theorem takeWhile_append_all (p : Char → Bool) (l1 l2 : List Char)
    (h : ∀ c ∈ l1, p c = true) :
    (l1 ++ l2).takeWhile p = l1 ++ l2.takeWhile p := by
  induction l1 with
  | nil => simp
  | cons c cs ih =>
    have hc : p c = true := h c (by simp)
    simp only [List.cons_append, List.takeWhile_cons, hc, if_true]
    rw [ih (fun x hx => h x (by simp [hx]))]

theorem dropWhile_append_all (p : Char → Bool) (l1 l2 : List Char)
    (h : ∀ c ∈ l1, p c = true) :
    (l1 ++ l2).dropWhile p = l2.dropWhile p := by
  induction l1 with
  | nil => simp
  | cons c cs ih =>
    have hc : p c = true := h c (by simp)
    simp only [List.cons_append, List.dropWhile_cons, hc, if_true]
    exact ih (fun x hx => h x (by simp [hx]))

theorem takeWhile_eq_nil_of_all_false (p : Char → Bool) (l : List Char)
    (h : ∀ c ∈ l, p c = false) : l.takeWhile p = [] := by
  cases l with
  | nil => rfl
  | cons c cs => simp [List.takeWhile_cons, h c (by simp)]

theorem dropWhile_eq_self_of_all_false (p : Char → Bool) (l : List Char)
    (h : ∀ c ∈ l, p c = false) : l.dropWhile p = l := by
  cases l with
  | nil => rfl
  | cons c cs => simp [List.dropWhile_cons, h c (by simp)]

theorem dropWhile_head_false (p : Char → Bool) :
    ∀ (l : List Char) (x : Char) (xs : List Char),
      l.dropWhile p = x :: xs → p x = false := by
  intro l
  induction l with
  | nil => intro x xs h; simp [List.dropWhile] at h
  | cons c cs ih =>
    intro x xs h
    by_cases hc : p c
    · rw [List.dropWhile_cons, if_pos hc] at h
      exact ih x xs h
    · rw [List.dropWhile_cons, if_neg hc] at h
      obtain ⟨rfl, -⟩ := List.cons.inj h
      simpa using hc

theorem wordTokens_prefix_nonword :
    ∀ (ws l : List Char), (∀ c ∈ ws, isWordChar c = false) →
      wordTokens (ws ++ l) = wordTokens l := by
  intro ws
  induction ws with
  | nil => intro l _; simp
  | cons c cs ih =>
    intro l h
    have hc : isWordChar c = false := h c (by simp)
    rw [List.cons_append, wordTokens_cons, if_neg (by simp [hc])]
    exact ih l (fun x hx => h x (by simp [hx]))

theorem wordTokens_nonword_eq_nil (ws : List Char)
    (h : ∀ c ∈ ws, isWordChar c = false) : wordTokens ws = [] := by
  have := wordTokens_prefix_nonword ws [] h
  simpa [wordTokens_eq_nil] using this

theorem wordTokens_append_nonword_aux :
    ∀ (n : ℕ) (l ws : List Char), l.length ≤ n →
      (∀ c ∈ ws, isWordChar c = false) →
      wordTokens (l ++ ws) = wordTokens l := by
  intro n
  induction n with
  | zero =>
    intro l ws hl h
    have hnil : l = [] := List.length_eq_zero.mp (by omega)
    subst hnil
    simp only [List.nil_append, wordTokens_eq_nil]
    exact wordTokens_nonword_eq_nil ws h
  | succ n ih =>
    intro l ws hl h
    cases l with
    | nil =>
      simp only [List.nil_append, wordTokens_eq_nil]
      exact wordTokens_nonword_eq_nil ws h
    | cons c cs =>
      by_cases hc : isWordChar c
      · rw [List.cons_append, wordTokens_cons, if_pos hc, wordTokens_cons, if_pos hc]
        rcases hd : cs.dropWhile isWordChar with _ | ⟨dh, dt⟩
        · have hsplit := List.takeWhile_append_dropWhile (p := isWordChar) (l := cs)
          rw [hd, List.append_nil] at hsplit
          have hall : ∀ x ∈ cs, isWordChar x = true := by
            intro x hx
            exact List.mem_takeWhile_imp (by rw [hsplit]; exact hx)
          have ht1 : (cs ++ ws).takeWhile isWordChar = cs ++ ws.takeWhile isWordChar :=
            takeWhile_append_all _ _ _ hall
          have htws : ws.takeWhile isWordChar = [] :=
            takeWhile_eq_nil_of_all_false _ _ h
          have hd1 : (cs ++ ws).dropWhile isWordChar = ws.dropWhile isWordChar :=
            dropWhile_append_all _ _ _ hall
          have hdws : ws.dropWhile isWordChar = ws :=
            dropWhile_eq_self_of_all_false _ _ h
          rw [ht1, htws, List.append_nil, hd1, hdws, hsplit,
            wordTokens_eq_nil, wordTokens_nonword_eq_nil ws h]
        · have hdh : isWordChar dh = false := dropWhile_head_false _ cs dh dt hd
          have htk : ∀ x ∈ cs.takeWhile isWordChar, isWordChar x = true := by
            intro x hx
            exact List.mem_takeWhile_imp hx
          have hsplit := List.takeWhile_append_dropWhile (p := isWordChar) (l := cs)
          have ht1 : (cs ++ ws).takeWhile isWordChar = cs.takeWhile isWordChar := by
            conv_lhs => rw [← hsplit]
            rw [List.append_assoc, takeWhile_append_all _ _ _ htk, hd]
            rw [List.cons_append, List.takeWhile_cons, hdh]
            simp
          have hd1 : (cs ++ ws).dropWhile isWordChar = cs.dropWhile isWordChar ++ ws := by
            conv_lhs => rw [← hsplit]
            rw [List.append_assoc, dropWhile_append_all _ _ _ htk, hd]
            rw [List.cons_append, List.dropWhile_cons, hdh]
            simp
          rw [ht1, hd1]
          have hlen : (cs.dropWhile isWordChar).length ≤ n := by
            have h1 := dropWhile_length_le isWordChar cs
            simp only [List.length_cons] at hl
            omega
          rw [ih (cs.dropWhile isWordChar) ws hlen h, hd]
      · rw [List.cons_append, wordTokens_cons, if_neg (by simp [hc]),
          wordTokens_cons, if_neg (by simp [hc])]
        have hlen : cs.length ≤ n := by
          simp only [List.length_cons] at hl; omega
        exact ih cs ws hlen h

theorem wordTokens_append_nonword (l ws : List Char)
    (h : ∀ c ∈ ws, isWordChar c = false) :
    wordTokens (l ++ ws) = wordTokens l :=
  wordTokens_append_nonword_aux l.length l ws (le_refl _) h

theorem isWhitespace_cases (c : Char) (h : c.isWhitespace = true) :
    c = ' ' ∨ c = '\t' ∨ c = '\r' ∨ c = '\n' := by
  simp only [Char.isWhitespace, Bool.or_eq_true, decide_eq_true_eq] at h
  tauto

theorem toLower_whitespace_not_word (c : Char) (h : c.isWhitespace = true) :
    isWordChar (Char.toLower c) = false := by
  rcases isWhitespace_cases c h with rfl | rfl | rfl | rfl <;> decide

theorem pyStrip_decomp (s : List Char) :
    ∃ ws1 ws2, (∀ c ∈ ws1, c.isWhitespace = true) ∧
      (∀ c ∈ ws2, c.isWhitespace = true) ∧ s = ws1 ++ pyStrip s ++ ws2 := by
  refine ⟨s.takeWhile Char.isWhitespace,
    ((s.dropWhile Char.isWhitespace).reverse.takeWhile Char.isWhitespace).reverse,
    ?_, ?_, ?_⟩
  · intro c hc; exact List.mem_takeWhile_imp hc
  · intro c hc
    rw [List.mem_reverse] at hc
    exact List.mem_takeWhile_imp hc
  · conv_lhs => rw [← List.takeWhile_append_dropWhile (p := Char.isWhitespace) (l := s)]
    rw [List.append_assoc]
    congr 1
    have h1 : (s.dropWhile Char.isWhitespace).reverse =
        (s.dropWhile Char.isWhitespace).reverse.takeWhile Char.isWhitespace ++
          (s.dropWhile Char.isWhitespace).reverse.dropWhile Char.isWhitespace :=
      (List.takeWhile_append_dropWhile Char.isWhitespace _).symm
    have h2 := congrArg List.reverse h1
    simp only [List.reverse_reverse, List.reverse_append] at h2
    conv_lhs => rw [h2]
    rfl

theorem tokenize_pyStrip (s : List Char) : tokenize (pyStrip s) = tokenize s := by
  obtain ⟨ws1, ws2, h1, h2, hs⟩ := pyStrip_decomp s
  have hmap : ∀ (ws : List Char), (∀ c ∈ ws, c.isWhitespace = true) →
      ∀ c ∈ ws.map Char.toLower, isWordChar c = false := by
    intro ws hws c hc
    rw [List.mem_map] at hc
    obtain ⟨x, hx, rfl⟩ := hc
    exact toLower_whitespace_not_word x (hws x hx)
  conv_rhs => rw [hs]
  simp only [tokenize, lowerL, List.map_append]
  rw [List.append_assoc, wordTokens_prefix_nonword _ _ (hmap ws1 h1),
    wordTokens_append_nonword _ _ (hmap ws2 h2)]

theorem tokenize_eq_nil_empty : tokenize [] = [] := by
  simp [tokenize, lowerL, wordTokens_eq_nil]

theorem wordTokens_mem_infix_aux :
    ∀ (n : ℕ) (l w : List Char), l.length ≤ n → w ∈ wordTokens l → w <:+: l := by
  intro n
  induction n with
  | zero =>
    intro l w hl hw
    have : l = [] := List.length_eq_zero.mp (by omega)
    subst this
    rw [wordTokens_eq_nil] at hw
    simp at hw
  | succ n ih =>
    intro l w hl hw
    cases l with
    | nil => rw [wordTokens_eq_nil] at hw; simp at hw
    | cons c cs =>
      rw [wordTokens_cons] at hw
      by_cases hc : isWordChar c
      · rw [if_pos hc] at hw
        rcases List.mem_cons.mp hw with rfl | hmem
        · exact (List.cons_prefix_cons.mpr ⟨rfl, List.takeWhile_prefix _⟩).isInfix
        · have hlen : (cs.dropWhile isWordChar).length ≤ n := by
            have := dropWhile_length_le isWordChar cs
            simp only [List.length_cons] at hl
            omega
          have h1 : w <:+: cs.dropWhile isWordChar := ih _ w hlen hmem
          have h2 : w <:+: cs := h1.trans (List.dropWhile_suffix _).isInfix
          exact h2.trans (List.suffix_cons c cs).isInfix
      · rw [if_neg hc] at hw
        have hlen : cs.length ≤ n := by
          simp only [List.length_cons] at hl; omega
        have h1 : w <:+: cs := ih cs w hlen hw
        exact h1.trans (List.suffix_cons c cs).isInfix

theorem wordTokens_mem_infix (l w : List Char) (h : w ∈ wordTokens l) : w <:+: l :=
  wordTokens_mem_infix_aux l.length l w (le_refl _) h

theorem wordTokens_mem_ne_nil_aux :
    ∀ (n : ℕ) (l w : List Char), l.length ≤ n → w ∈ wordTokens l → w ≠ [] := by
  intro n
  induction n with
  | zero =>
    intro l w hl hw
    have : l = [] := List.length_eq_zero.mp (by omega)
    subst this
    rw [wordTokens_eq_nil] at hw
    simp at hw
  | succ n ih =>
    intro l w hl hw
    cases l with
    | nil => rw [wordTokens_eq_nil] at hw; simp at hw
    | cons c cs =>
      rw [wordTokens_cons] at hw
      by_cases hc : isWordChar c
      · rw [if_pos hc] at hw
        rcases List.mem_cons.mp hw with rfl | hmem
        · simp
        · have hlen : (cs.dropWhile isWordChar).length ≤ n := by
            have := dropWhile_length_le isWordChar cs
            simp only [List.length_cons] at hl
            omega
          exact ih _ w hlen hmem
      · rw [if_neg hc] at hw
        have hlen : cs.length ≤ n := by
          simp only [List.length_cons] at hl; omega
        exact ih cs w hlen hw

theorem wordTokens_mem_ne_nil (l w : List Char) (h : w ∈ wordTokens l) : w ≠ [] :=
  wordTokens_mem_ne_nil_aux l.length l w (le_refl _) h

/-! ### Bounds on the token matcher and the entry scorer -/

theorem bestMatchLoop_bounds (token : List Char) :
    ∀ (ws : List (List Char)) (best : ℚ), 0 ≤ best → best ≤ 1 →
      0 ≤ bestMatchLoop token ws best ∧ bestMatchLoop token ws best ≤ 1 := by
  intro ws
  induction ws with
  | nil =>
    intro best h0 h1
    simp only [bestMatchLoop]
    constructor
    · positivity
    · nlinarith
  | cons w ws ih =>
    intro best h0 h1
    simp only [bestMatchLoop]
    by_cases hw : w = []
    · rw [if_pos hw]; exact ih best h0 h1
    · rw [if_neg hw]
      by_cases he : token = w
      · rw [if_pos he]; norm_num
      · rw [if_neg he]
        by_cases hi : token <:+: w ∨ w <:+: token
        · rw [if_pos hi]
          exact ih _ (le_max_of_le_right (by norm_num)) (max_le h1 (by norm_num))
        · rw [if_neg hi]
          have hr0 := ratioVal_nonneg token w
          have hr1 := ratioVal_le_one token w
          by_cases hlt : best < ratioVal token w
          · rw [if_pos hlt]; exact ih _ hr0 hr1
          · rw [if_neg hlt]; exact ih _ h0 h1

theorem best_match_bounds (token text : List Char) :
    0 ≤ best_match_score_for_token token text ∧
      best_match_score_for_token token text ≤ 1 := by
  simp only [best_match_score_for_token]
  split_ifs with h1 h2 h3
  · norm_num
  · norm_num
  · norm_num
  · exact bestMatchLoop_bounds _ _ 0 (le_refl 0) (by norm_num)

theorem score_foldl_bounds (f1 f2 f3 f4 f5 : List Char) :
    ∀ (toks : List (List Char)) (acc : ℚ),
      acc ≤ List.foldl (fun acc token =>
        acc + best_match_score_for_token token f1 * 3 +
          best_match_score_for_token token f2 * (9/5) +
          best_match_score_for_token token f3 * (3/2) +
          best_match_score_for_token token f4 * (6/5) +
          best_match_score_for_token token f5 * 1) acc toks ∧
      List.foldl (fun acc token =>
        acc + best_match_score_for_token token f1 * 3 +
          best_match_score_for_token token f2 * (9/5) +
          best_match_score_for_token token f3 * (3/2) +
          best_match_score_for_token token f4 * (6/5) +
          best_match_score_for_token token f5 * 1) acc toks ≤
        acc + (17/2) * (toks.length : ℚ) := by
  intro toks
  induction toks with
  | nil => intro acc; simp
  | cons t ts ih =>
    intro acc
    simp only [List.foldl_cons, List.length_cons]
    obtain ⟨a1, a2⟩ := best_match_bounds t f1
    obtain ⟨b1, b2⟩ := best_match_bounds t f2
    obtain ⟨c1, c2⟩ := best_match_bounds t f3
    obtain ⟨d1, d2⟩ := best_match_bounds t f4
    obtain ⟨e1, e2⟩ := best_match_bounds t f5
    obtain ⟨ih1, ih2⟩ := ih (acc + best_match_score_for_token t f1 * 3 +
      best_match_score_for_token t f2 * (9/5) +
      best_match_score_for_token t f3 * (3/2) +
      best_match_score_for_token t f4 * (6/5) +
      best_match_score_for_token t f5 * 1)
    constructor
    · refine le_trans ?_ ih1
      nlinarith
    · refine le_trans ih2 ?_
      push_cast
      nlinarith

theorem score_entry_bounds (entry : Entry) (tokens : List (List Char))
    (h : tokens ≠ []) :
    0 ≤ score_entry entry tokens ∧ score_entry entry tokens ≤ 1 := by
  simp only [score_entry]
  rw [if_neg h]
  have hb := score_foldl_bounds entry.name entry.description
    (List.intercalate [' '] (entry.content.map Prod.snd))
    (List.intercalate [' '] (entry.examples.map exampleParts).flatten)
    entry.notes tokens 0
  obtain ⟨hlo, hhi⟩ := hb
  have hlen : 0 < tokens.length := List.length_pos.mpr h
  have hlenq : (1 : ℚ) ≤ (tokens.length : ℚ) := by exact_mod_cast hlen
  have hden : (0 : ℚ) < (tokens.length : ℚ) * (3 + 9/5 + 3/2 + 6/5 + 1) := by
    nlinarith
  constructor
  · apply div_nonneg
    · simpa using hlo
    · exact le_of_lt hden
  · rw [div_le_one hden]
    refine le_trans hhi ?_
    nlinarith

/-! ### Characterization of the category search -/

theorem search_eq_of_tokens (entries : List Entry) (query : List Char) (ms : ℚ)
    (hq : pyStrip query ≠ []) (ht : tokenize (pyStrip query) ≠ []) :
    search_entries_in_category entries query ms =
      (sortDesc (entries.filterMap (fun entry =>
        if ms ≤ score_entry entry (tokenize (pyStrip query)) then
          some (score_entry entry (tokenize (pyStrip query)), entry)
        else none))).map Prod.snd := by
  simp only [search_entries_in_category]
  rw [if_neg hq, if_neg ht]

theorem search_eq_passthrough (entries : List Entry) (query : List Char) (ms : ℚ)
    (h : pyStrip query = [] ∨ tokenize (pyStrip query) = []) :
    search_entries_in_category entries query ms = entries := by
  simp only [search_entries_in_category]
  by_cases hq : pyStrip query = []
  · rw [if_pos hq]
  · rw [if_neg hq]
    rcases h with h | h
    · exact absurd h hq
    · rw [if_pos h]

theorem scored_key (toks : List (List Char)) (ms : ℚ) :
    ∀ (entries : List Entry) (p : ℚ × Entry),
      p ∈ entries.filterMap (fun entry =>
        if ms ≤ score_entry entry toks then
          some (score_entry entry toks, entry) else none) →
      p.1 = score_entry p.2 toks := by
  intro entries
  induction entries with
  | nil => intro p hp; simp at hp
  | cons e es ih =>
    intro p hp
    rw [List.filterMap_cons] at hp
    by_cases he : ms ≤ score_entry e toks
    · rw [if_pos he] at hp
      rcases List.mem_cons.mp hp with rfl | hmem
      · rfl
      · exact ih p hmem
    · rw [if_neg he] at hp
      exact ih p hp

theorem scored_map_snd (toks : List (List Char)) (ms : ℚ) :
    ∀ (entries : List Entry),
      (entries.filterMap (fun entry =>
        if ms ≤ score_entry entry toks then
          some (score_entry entry toks, entry) else none)).map Prod.snd =
        entries.filter (fun e => decide (ms ≤ score_entry e toks)) := by
  intro entries
  induction entries with
  | nil => rfl
  | cons e es ih =>
    rw [List.filterMap_cons, List.filter_cons]
    by_cases he : ms ≤ score_entry e toks
    · rw [if_pos he]
      simp [ih, he]
    · rw [if_neg he]
      simp [ih, he]

theorem scored_filter_map_snd (toks : List (List Char)) (ms c : ℚ) :
    ∀ (entries : List Entry),
      ((entries.filterMap (fun entry =>
        if ms ≤ score_entry entry toks then
          some (score_entry entry toks, entry) else none)).filter
            (fun x => decide (x.1 = c))).map Prod.snd =
        entries.filter (fun e =>
          decide (score_entry e toks = c) && decide (ms ≤ score_entry e toks)) := by
  intro entries
  induction entries with
  | nil => rfl
  | cons e es ih =>
    rw [List.filterMap_cons, List.filter_cons]
    by_cases he : ms ≤ score_entry e toks
    · rw [if_pos he, List.filter_cons]
      by_cases hc : score_entry e toks = c
      · simp [hc, he, ih]
        rw [if_pos (hc ▸ he)]
      · simp [hc, ih]
    · rw [if_neg he]
      simp [he, ih]

/-! ### Properties of the identifier generator -/

theorem firstFreeCounter_spec (base : List Char) (ids : List (List Char)) :
    0 < firstFreeCounter base ids ∧
      candidateId base (firstFreeCounter base ids) ∉ ids :=
  Nat.find_spec (exists_fresh_candidate base ids)

theorem get_unique_id_fresh (name id : List Char) (ids : List (List Char))
    (h : id ∈ ids) : (get_unique_name_and_id name id ids).2 ∉ ids := by
  simp only [get_unique_name_and_id]
  rw [if_pos h]
  exact (firstFreeCounter_spec (stripIdSuffix id) ids).2

theorem sortDesc_sorted (l : List (ℚ × Entry)) :
    (sortDesc l).Pairwise (fun x y => y.1 ≤ x.1) := by
  induction l with
  | nil => simp [sortDesc]
  | cons x xs ih => exact insertDesc_sorted x _ ih

theorem tokenize_strip_ne_nil (query : List Char) (h : tokenize query ≠ []) :
    pyStrip query ≠ [] ∧ tokenize (pyStrip query) ≠ [] := by
  have hts : tokenize (pyStrip query) = tokenize query := tokenize_pyStrip query
  have ht : tokenize (pyStrip query) ≠ [] := by rw [hts]; exact h
  refine ⟨?_, ht⟩
  intro hnil
  rw [hnil, tokenize_eq_nil_empty] at ht
  exact ht rfl

theorem search_perm_filter (entries : List Entry) (query : List Char) (ms : ℚ)
    (h : tokenize query ≠ []) :
    (search_entries_in_category entries query ms).Perm
      (entries.filter (fun e => decide (ms ≤ score_entry e (tokenize query)))) := by
  obtain ⟨hq, ht⟩ := tokenize_strip_ne_nil query h
  rw [search_eq_of_tokens entries query ms hq ht, tokenize_pyStrip query]
  have hperm := (sortDesc_perm (entries.filterMap (fun entry =>
    if ms ≤ score_entry entry (tokenize query) then
      some (score_entry entry (tokenize query), entry) else none))).map Prod.snd
  rw [scored_map_snd] at hperm
  exact hperm

theorem search_pairwise_desc (entries : List Entry) (query : List Char) (ms : ℚ)
    (h : tokenize query ≠ []) :
    (search_entries_in_category entries query ms).Pairwise
      (fun e1 e2 => score_entry e2 (tokenize query) ≤ score_entry e1 (tokenize query)) := by
  obtain ⟨hq, ht⟩ := tokenize_strip_ne_nil query h
  rw [search_eq_of_tokens entries query ms hq ht, tokenize_pyStrip query]
  have hsorted := sortDesc_sorted (entries.filterMap (fun entry =>
    if ms ≤ score_entry entry (tokenize query) then
      some (score_entry entry (tokenize query), entry) else none))
  have hkey : ∀ p ∈ sortDesc (entries.filterMap (fun entry =>
      if ms ≤ score_entry entry (tokenize query) then
        some (score_entry entry (tokenize query), entry) else none)),
      p.1 = score_entry p.2 (tokenize query) := by
    intro p hp
    exact scored_key _ _ entries p ((sortDesc_perm _).mem_iff.mp hp)
  rw [List.pairwise_map]
  refine hsorted.imp_of_mem ?_
  intro a b ha hb hr
  rw [← hkey a ha, ← hkey b hb]
  exact hr

theorem search_stable_filter (entries : List Entry) (query : List Char) (ms : ℚ)
    (h : tokenize query ≠ []) (c : ℚ) :
    (search_entries_in_category entries query ms).filter
        (fun e => decide (score_entry e (tokenize query) = c)) =
      entries.filter (fun e => decide (score_entry e (tokenize query) = c) &&
        decide (ms ≤ score_entry e (tokenize query))) := by
  obtain ⟨hq, ht⟩ := tokenize_strip_ne_nil query h
  rw [search_eq_of_tokens entries query ms hq ht, tokenize_pyStrip query]
  rw [List.filter_map]
  have hkey : ∀ p ∈ sortDesc (entries.filterMap (fun entry =>
      if ms ≤ score_entry entry (tokenize query) then
        some (score_entry entry (tokenize query), entry) else none)),
      p.1 = score_entry p.2 (tokenize query) := by
    intro p hp
    exact scored_key _ _ entries p ((sortDesc_perm _).mem_iff.mp hp)
  have hcongr : (sortDesc (entries.filterMap (fun entry =>
      if ms ≤ score_entry entry (tokenize query) then
        some (score_entry entry (tokenize query), entry) else none))).filter
        ((fun e => decide (score_entry e (tokenize query) = c)) ∘ Prod.snd) =
      (sortDesc (entries.filterMap (fun entry =>
        if ms ≤ score_entry entry (tokenize query) then
          some (score_entry entry (tokenize query), entry) else none))).filter
        (fun x => decide (x.1 = c)) := by
    apply List.filter_congr
    intro x hx
    simp only [Function.comp]
    rw [hkey x hx]
  rw [hcongr, sortDesc_filter]
  exact scored_filter_map_snd (tokenize query) ms c entries

theorem dup_cat_fold_inv (all_entry_ids : List (List Char)) :
    ∀ (es : List Entry) (acc : List Entry × List (List Char)),
      (∀ e ∈ es, e.id ∈ all_entry_ids) →
      (∀ x ∈ all_entry_ids, x ∈ acc.2) →
      (acc.1.map Entry.id).Nodup →
      (∀ i ∈ acc.1.map Entry.id, i ∉ all_entry_ids) →
      (∀ i ∈ acc.1.map Entry.id, i ∈ acc.2) →
      ((es.foldl (fun acc entry =>
        ((acc.1 ++ [{ entry with
            name := (get_unique_name_and_id entry.name entry.id acc.2).1,
            id := (get_unique_name_and_id entry.name entry.id acc.2).2 }]),
          acc.2 ++ [(get_unique_name_and_id entry.name entry.id acc.2).2])) acc).1.map
            Entry.id).Nodup ∧
      (∀ i ∈ ((es.foldl (fun acc entry =>
        ((acc.1 ++ [{ entry with
            name := (get_unique_name_and_id entry.name entry.id acc.2).1,
            id := (get_unique_name_and_id entry.name entry.id acc.2).2 }]),
          acc.2 ++ [(get_unique_name_and_id entry.name entry.id acc.2).2])) acc).1.map
            Entry.id), i ∉ all_entry_ids) := by
  intro es
  induction es with
  | nil =>
    intro acc _ _ h2 h3 _
    exact ⟨h2, h3⟩
  | cons e es ih =>
    intro acc hes h1 h2 h3 h4
    have he : e.id ∈ all_entry_ids := hes e (by simp)
    have hin : e.id ∈ acc.2 := h1 e.id he
    have hfresh : (get_unique_name_and_id e.name e.id acc.2).2 ∉ acc.2 :=
      get_unique_id_fresh e.name e.id acc.2 hin
    rw [List.foldl_cons]
    apply ih
    · intro x hx; exact hes x (by simp [hx])
    · intro x hx
      simp only [List.mem_append]
      left; exact h1 x hx
    · simp only [List.map_append, List.map_cons, List.map_nil]
      rw [List.nodup_append]
      refine ⟨h2, List.nodup_singleton _, ?_⟩
      intro a ha hb
      simp only [List.mem_singleton] at hb
      exact hfresh (hb ▸ h4 a ha)
    · intro i hi
      simp only [List.map_append, List.map_cons, List.map_nil,
        List.mem_append, List.mem_singleton] at hi
      rcases hi with hi | hi
      · exact h3 i hi
      · subst hi
        intro hcon
        exact hfresh (h1 _ hcon)
    · intro i hi
      simp only [List.map_append, List.map_cons, List.map_nil,
        List.mem_append, List.mem_singleton] at hi
      simp only [List.mem_append, List.mem_singleton]
      rcases hi with hi | hi
      · left; exact h4 i hi
      · right; exact hi

/-! ### Evaluation helpers for the identifier generator -/

theorem firstFreeCounter_eq (base : List Char) (ids : List (List Char)) (n : ℕ)
    (h1 : 0 < n ∧ candidateId base n ∉ ids)
    (h2 : ∀ m, m < n → ¬(0 < m ∧ candidateId base m ∉ ids)) :
    firstFreeCounter base ids = n := by
  unfold firstFreeCounter
  exact (Nat.find_eq_iff _).mpr ⟨h1, h2⟩

theorem get_unique_eval (name id : List Char) (ids : List (List Char)) (n : ℕ)
    (h : id ∈ ids) (hn : firstFreeCounter (stripIdSuffix id) ids = n) :
    get_unique_name_and_id name id ids =
      (candidateName (stripNameSuffix name) n, candidateId (stripIdSuffix id) n) := by
  simp only [get_unique_name_and_id]
  rw [if_pos h, hn]

/-! ### The claims -/

/-- Claim C1, counterexample: with `originalId = "foo_1"` not in
`existingIds = {"foo"}`, `get_unique_name_and_id` returns the stripped
base id `"foo"` unchanged, which is a member of `existingIds` — so the
returned id can collide when the original id is unused. -/
theorem claim_C1_counterexample :
    (get_unique_name_and_id "x".data "foo_1".data ["foo".data]).2 ∈ ["foo".data] := by
  decide

/-- Claim C1, amended: whenever the original id is itself a member of
`existingIds` (as is always the case when duplicating an element of the
document), the id returned by `get_unique_name_and_id` is not a member of
`existingIds`. -/
theorem claim_C1_amended (original_name original_id : List Char)
    (existing_ids : List (List Char)) (h : original_id ∈ existing_ids) :
    (get_unique_name_and_id original_name original_id existing_ids).2 ∉ existing_ids :=
  get_unique_id_fresh original_name original_id existing_ids h

theorem claim_C1_witness :
    "e1".data ∈ ["e1".data, "e2".data] ∧
      (get_unique_name_and_id "ping".data "e1".data ["e1".data, "e2".data]).2 ∉
        ["e1".data, "e2".data] :=
  ⟨by decide, claim_C1_amended "ping".data "e1".data ["e1".data, "e2".data] (by decide)⟩

/-- Claim C2, counterexample: `"ping"` equals the whole word `"ping"` of
`"ping host"`, yet `best_match_score_for_token "ping" "ping host"` is 0.6
(the earlier substring test fires first), not 1.0. -/
theorem claim_C2_counterexample :
    lowerL "ping".data ∈ wordTokens (lowerL "ping host".data) ∧
      best_match_score_for_token "ping".data "ping host".data ≠ 1 := by
  constructor
  · decide
  · have h : best_match_score_for_token "ping".data "ping host".data = 3/5 := by
      simp only [best_match_score_for_token]
      rw [if_neg (by decide), if_neg (by decide), if_pos (by decide)]
    rw [h]
    norm_num

/-- Claim C2, amended: `best_match_score_for_token tok t` returns 1.0
whenever `tok` is nonempty and `tok.lower() == t.lower()`; and whenever
`tok` equals (case-insensitively) a whole word of `t` under the `\w+`
tokenization rule, it returns at least 0.6 (1.0 if that word is the whole
text, else exactly 0.6 from the substring test). -/
theorem claim_C2_amended (tok t : List Char) :
    (tok ≠ [] → lowerL tok = lowerL t → best_match_score_for_token tok t = 1) ∧
    (lowerL tok ∈ wordTokens (lowerL t) →
      3/5 ≤ best_match_score_for_token tok t) := by
  constructor
  · intro h1 h2
    have ht : t ≠ [] := by
      intro hnil
      subst hnil
      simp only [lowerL, List.map_nil, List.map_eq_nil_iff] at h2
      exact h1 h2
    simp only [best_match_score_for_token]
    rw [if_neg (by tauto), if_pos h2]
  · intro hmem
    have htokne : lowerL tok ≠ [] := wordTokens_mem_ne_nil _ _ hmem
    have htok : tok ≠ [] := by
      intro h; subst h
      exact htokne rfl
    have ht : t ≠ [] := by
      intro h; subst h
      rw [show lowerL ([] : List Char) = [] from rfl, wordTokens_eq_nil] at hmem
      simp at hmem
    simp only [best_match_score_for_token]
    rw [if_neg (by tauto)]
    by_cases heq : lowerL tok = lowerL t
    · rw [if_pos heq]; norm_num
    · rw [if_neg heq]
      have hinf : lowerL tok <:+: lowerL t := wordTokens_mem_infix _ _ hmem
      rw [if_pos hinf]

theorem claim_C2_witness :
    ("Ping".data ≠ [] ∧ lowerL "Ping".data = lowerL "ping".data ∧
      best_match_score_for_token "Ping".data "ping".data = 1) ∧
    (lowerL "ping".data ∈ wordTokens (lowerL "ping host".data) ∧
      3/5 ≤ best_match_score_for_token "ping".data "ping host".data) :=
  ⟨⟨by decide, by decide,
      (claim_C2_amended "Ping".data "ping".data).1 (by decide) (by decide)⟩,
    ⟨by decide, (claim_C2_amended "ping".data "ping host".data).2 (by decide)⟩⟩

/-- Claim C3: for every entry list, every query whose tokenization is
non-empty, and every threshold, `search_entries_in_category` returns
exactly the input entries scoring at least `min_score` (as a permutation
of the input filter), ordered by descending score. -/
theorem claim_C3_filter_and_sort (entries : List Entry) (query : List Char)
    (ms : ℚ) (h : tokenize query ≠ []) :
    (search_entries_in_category entries query ms).Perm
        (entries.filter (fun e => decide (ms ≤ score_entry e (tokenize query)))) ∧
      (search_entries_in_category entries query ms).Pairwise
        (fun e1 e2 => score_entry e2 (tokenize query) ≤ score_entry e1 (tokenize query)) :=
  ⟨search_perm_filter entries query ms h, search_pairwise_desc entries query ms h⟩

theorem claim_C3_witness :
    tokenize "ping".data ≠ [] ∧
      ((search_entries_in_category
          [⟨"e1".data, "ping".data, [], [], [], []⟩,
            ⟨"e2".data, "curl".data, [], [], [], []⟩] "ping".data (3/25)).Perm
        ([⟨"e1".data, "ping".data, [], [], [], []⟩,
            ⟨"e2".data, "curl".data, [], [], [], []⟩].filter
          (fun e => decide ((3/25 : ℚ) ≤ score_entry e (tokenize "ping".data)))) ∧
      (search_entries_in_category
          [⟨"e1".data, "ping".data, [], [], [], []⟩,
            ⟨"e2".data, "curl".data, [], [], [], []⟩] "ping".data (3/25)).Pairwise
        (fun e1 e2 => score_entry e2 (tokenize "ping".data) ≤
          score_entry e1 (tokenize "ping".data))) :=
  ⟨by decide, claim_C3_filter_and_sort _ "ping".data (3/25) (by decide)⟩

/-- Claim C4: if the query is empty or whitespace-only after trimming, or
its tokenization yields zero tokens, `search_entries_in_category` returns
the input entries unchanged, in their original order. -/
theorem claim_C4_passthrough (entries : List Entry) (query : List Char) (ms : ℚ)
    (h : pyStrip query = [] ∨ tokenize query = []) :
    search_entries_in_category entries query ms = entries := by
  apply search_eq_passthrough
  rcases h with h | h
  · left; exact h
  · right; rw [tokenize_pyStrip]; exact h

theorem claim_C4_witness :
    (pyStrip "  ".data = [] ∨ tokenize "  ".data = []) ∧
      search_entries_in_category [⟨"e1".data, "ping".data, [], [], [], []⟩]
        "  ".data (3/25) = [⟨"e1".data, "ping".data, [], [], [], []⟩] :=
  ⟨Or.inl (by decide),
    claim_C4_passthrough [⟨"e1".data, "ping".data, [], [], [], []⟩] "  ".data (3/25)
      (Or.inl (by decide))⟩

/-- Claim C5, counterexample: duplicating `{id:"e1", name:"ping"}` against
`{"e1","e2"}` does not yield `("ping (1)", "ping_1")` — the new id is
derived from the id base `"e1"`, not from the name. -/
theorem claim_C5_counterexample :
    get_unique_name_and_id "ping".data "e1".data ["e1".data, "e2".data] ≠
      ("ping (1)".data, "ping_1".data) := by
  have hs : stripIdSuffix "e1".data = "e1".data := by decide
  have hn : firstFreeCounter (stripIdSuffix "e1".data) ["e1".data, "e2".data] = 1 := by
    rw [hs]
    apply firstFreeCounter_eq
    · exact ⟨by decide, by decide⟩
    · intro m hm
      interval_cases m
      · decide
  rw [get_unique_eval _ _ _ 1 (by decide) hn]
  decide

/-- Claim C5, amended: `get_unique_name_and_id("ping","e1",{"e1","e2"})`
returns `("ping (1)", "e1_1")`; applying it again to that result against
`{"e1","e2","e1_1"}` returns `("ping (2)", "e1_2")` — the suffix-stripping
step prevents compounding suffixes such as `"ping (1) (1)"`. -/
theorem claim_C5_amended :
    get_unique_name_and_id "ping".data "e1".data ["e1".data, "e2".data] =
      ("ping (1)".data, "e1_1".data) ∧
    get_unique_name_and_id "ping (1)".data "e1_1".data
        ["e1".data, "e2".data, "e1_1".data] =
      ("ping (2)".data, "e1_2".data) := by
  constructor
  · have hs : stripIdSuffix "e1".data = "e1".data := by decide
    have hn : firstFreeCounter (stripIdSuffix "e1".data) ["e1".data, "e2".data] = 1 := by
      rw [hs]
      apply firstFreeCounter_eq
      · exact ⟨by decide, by decide⟩
      · intro m hm
        interval_cases m
        · decide
    rw [get_unique_eval _ _ _ 1 (by decide) hn]
    decide
  · have hs : stripIdSuffix "e1_1".data = "e1".data := by decide
    have hn : firstFreeCounter (stripIdSuffix "e1_1".data)
        ["e1".data, "e2".data, "e1_1".data] = 2 := by
      rw [hs]
      apply firstFreeCounter_eq
      · exact ⟨by decide, by decide⟩
      · intro m hm
        interval_cases m
        · decide
        · decide
    rw [get_unique_eval _ _ _ 2 (by decide) hn]
    decide

/-- Claim C6, counterexample: the normalization denominator of
`score_entry` is `tokenCount * 8.5` (the weights sum to
3.0+1.8+1.5+1.2+1.0 = 8.5), not `tokenCount * 9.0`: an entry whose name
alone exactly matches the single query token scores 3/8.5 = 6/17, whereas
the claimed formula would give 3/9. -/
theorem claim_C6_counterexample :
    score_entry ⟨"e1".data, "a".data, [], [], [], []⟩ [['a']] = 6/17 ∧
      (6/17 : ℚ) ≠ 3 / (1 * 9) := by
  constructor
  · have hname : best_match_score_for_token ['a'] "a".data = 1 := by
      simp only [best_match_score_for_token]
      rw [if_neg (by decide), if_pos (by decide)]
    have hempty : best_match_score_for_token ['a'] ([] : List Char) = 0 := by
      simp only [best_match_score_for_token]
      rw [if_pos (by decide)]
    simp only [score_entry]
    rw [if_neg (by decide)]
    rw [show List.intercalate [' ']
        (List.map Prod.snd ([] : List (List Char × List Char))) = [] from rfl]
    rw [show List.intercalate [' ']
        (List.map exampleParts ([] : List ExampleItem)).flatten = [] from rfl]
    simp only [List.foldl_cons, List.foldl_nil, List.length_cons, List.length_nil]
    rw [hname, hempty]
    norm_num
  · norm_num

/-- Claim C6, amended: for every entry and every non-empty token list,
`score_entry` returns a value in the closed interval [0,1]; the raw
weighted sum divided by `tokenCount * 8.5` (the actual weight sum) never
falls below 0 nor exceeds 1, because each per-field match score lies in
[0,1]. -/
theorem claim_C6_amended (entry : Entry) (tokens : List (List Char))
    (h : tokens ≠ []) :
    0 ≤ score_entry entry tokens ∧ score_entry entry tokens ≤ 1 :=
  score_entry_bounds entry tokens h

theorem claim_C6_witness :
    ([['a']] : List (List Char)) ≠ [] ∧
      (0 ≤ score_entry ⟨"e1".data, "a".data, [], [], [], []⟩ [['a']] ∧
        score_entry ⟨"e1".data, "a".data, [], [], [], []⟩ [['a']] ≤ 1) :=
  ⟨by decide, claim_C6_amended ⟨"e1".data, "a".data, [], [], [], []⟩ [['a']] (by decide)⟩

/-- Claim C7: an empty token list makes every entry score exactly 1.0,
regardless of the entry's fields. -/
theorem claim_C7_empty_tokens (entry : Entry) : score_entry entry [] = 1 := by
  simp [score_entry]

/-- Claim C8: the candidate-counter loop of `get_unique_name_and_id`
terminates: some counter value `i ≥ 1` always yields an id
`"<base>_<i>"` absent from `existingIds` — realized by the value
`firstFreeCounter` at which the loop returns — so the function is total. -/
theorem claim_C8_terminates (base_id : List Char) (existing_ids : List (List Char)) :
    ∃ i, 0 < i ∧ candidateId base_id i ∉ existing_ids ∧
      i = firstFreeCounter base_id existing_ids :=
  ⟨firstFreeCounter base_id existing_ids,
    (firstFreeCounter_spec base_id existing_ids).1,
    (firstFreeCounter_spec base_id existing_ids).2, rfl⟩

/-- Claim C9 (implicit): the sort of `search_entries_in_category` is
stable and keys only on the score: the result is descending in score and,
for every score value `c`, the sublist of result entries scoring `c`
equals the sublist of input entries scoring `c` (and passing the
threshold) in input order — so the result order is fully deterministic:
descending score, then original index. -/
theorem claim_C9_stable (entries : List Entry) (query : List Char) (ms : ℚ)
    (h : tokenize query ≠ []) (c : ℚ) :
    (search_entries_in_category entries query ms).Pairwise
        (fun e1 e2 => score_entry e2 (tokenize query) ≤ score_entry e1 (tokenize query)) ∧
      (search_entries_in_category entries query ms).filter
          (fun e => decide (score_entry e (tokenize query) = c)) =
        entries.filter (fun e => decide (score_entry e (tokenize query) = c) &&
          decide (ms ≤ score_entry e (tokenize query))) :=
  ⟨search_pairwise_desc entries query ms h, search_stable_filter entries query ms h c⟩

theorem claim_C9_witness :
    tokenize "ping".data ≠ [] ∧
      ((search_entries_in_category [⟨"e1".data, "ping".data, [], [], [], []⟩]
          "ping".data (3/25)).Pairwise
        (fun e1 e2 => score_entry e2 (tokenize "ping".data) ≤
          score_entry e1 (tokenize "ping".data)) ∧
      (search_entries_in_category [⟨"e1".data, "ping".data, [], [], [], []⟩]
          "ping".data (3/25)).filter
          (fun e => decide (score_entry e (tokenize "ping".data) = 1)) =
        [⟨"e1".data, "ping".data, [], [], [], []⟩].filter
          (fun e => decide (score_entry e (tokenize "ping".data) = 1) &&
            decide ((3/25 : ℚ) ≤ score_entry e (tokenize "ping".data)))) :=
  ⟨by decide, claim_C9_stable [⟨"e1".data, "ping".data, [], [], [], []⟩]
    "ping".data (3/25) (by decide) 1⟩

/-- Claim C10 (implicit): for every category whose entry ids are all
members of `all_entry_ids`, the category returned by
`process_duplicated_category` has pairwise-distinct entry ids, none of
which belongs to `all_entry_ids` (each freshly minted entry id joins the
exclusion list before the next sibling is processed).  The input category
is untouched: the embedding is pure, mirroring the source's `deepcopy`. -/
theorem claim_C10_fresh_ids (category_data : Category)
    (existing_cat_ids all_entry_ids : List (List Char))
    (h : ∀ e ∈ category_data.entries, e.id ∈ all_entry_ids) :
    ((process_duplicated_category category_data existing_cat_ids
        all_entry_ids).entries.map Entry.id).Nodup ∧
      ∀ i ∈ (process_duplicated_category category_data existing_cat_ids
        all_entry_ids).entries.map Entry.id, i ∉ all_entry_ids := by
  simp only [process_duplicated_category]
  exact dup_cat_fold_inv all_entry_ids category_data.entries ([], all_entry_ids) h
    (fun x hx => hx) List.nodup_nil (by simp) (by simp)

theorem claim_C10_witness :
    (∀ e ∈ (⟨"c1".data, "net".data,
        [⟨"e1".data, "ping".data, [], [], [], []⟩]⟩ : Category).entries,
      e.id ∈ ["e1".data, "e2".data]) ∧
      (((process_duplicated_category
          ⟨"c1".data, "net".data, [⟨"e1".data, "ping".data, [], [], [], []⟩]⟩
          ["c1".data] ["e1".data, "e2".data]).entries.map Entry.id).Nodup ∧
        ∀ i ∈ (process_duplicated_category
          ⟨"c1".data, "net".data, [⟨"e1".data, "ping".data, [], [], [], []⟩]⟩
          ["c1".data] ["e1".data, "e2".data]).entries.map Entry.id,
          i ∉ ["e1".data, "e2".data]) :=
  ⟨by decide, claim_C10_fresh_ids
    ⟨"c1".data, "net".data, [⟨"e1".data, "ping".data, [], [], [], []⟩]⟩
    ["c1".data] ["e1".data, "e2".data] (by decide)⟩
